import Mathlib

/-!
Verification of the analysis and mix-compatibility core of the muzixer
repository (`src/app/audio.py`, `src/app/main.py`, `src/app/ui_main.py`,
`src/app/workers.py`).

Embedding conventions:
* Python `int` is `ℤ`; an `int`-or-`None` value is `Option ℤ`; a string-or-`None`
  is `Option String`.
* Machine floats are modelled as exact rationals `ℚ`.  Every float expression
  appearing in the scoring path (`0.6 * b + 0.4 * k`, `cur_bpm / 2`) has an
  exact value, so this is faithful up to float rounding noise, which never
  crosses a decision threshold at the integer inputs involved.
* Python `round` is round-half-to-even (banker's rounding); `pyRound` models it
  on `ℚ` and `pyRoundDiv s d` is the same value for the exact quotient `s / d`
  computed with integer arithmetic only (so that it evaluates in the kernel).
* Python truthiness on `Option` values: `None`, `0`, and `""` are falsy.
-/

namespace Muzixer

/-- Python `round` on an exact rational: round half to even. -/
def pyRound (q : ℚ) : ℤ :=
  if q - ⌊q⌋ < 1/2 then ⌊q⌋
  else if 1/2 < q - ⌊q⌋ then ⌊q⌋ + 1
  else if ⌊q⌋ % 2 = 0 then ⌊q⌋ else ⌊q⌋ + 1

/-- Round-half-to-even of the exact quotient `s / d` (for `d > 0`), computed
with integer arithmetic only (on `ℤ`, `/` and `%` are Euclidean division, which
is floor division for a positive divisor).  `pyRoundDiv_eq_pyRound` below
proves it agrees with `pyRound ((s : ℚ) / d)`. -/
def pyRoundDiv (s d : ℤ) : ℤ :=
  if 2 * (s % d) < d then s / d
  else if d < 2 * (s % d) then s / d + 1
  else if (s / d) % 2 = 0 then s / d else s / d + 1

/-- The `parse_camelot` helper of `src/app/main.py` (lines 85-94): split a
Camelot code into its wheel number and mode character.  Falsy input (`None`
or `""`) and the sentinel `"UNK"` give `(None, None)`; `int(c[:-1])` is
modelled by `String.toInt?` on the string without its last character, and a
parse failure also gives `(None, None)`. -/
def parse_camelot (c : Option String) : Option ℤ × Option Char :=
  match c with
  | none => (none, none)
  | some s =>
    if s = "" ∨ s = "UNK" then (none, none)
    else
      match (s.dropRight 1).toInt? with
      | none => (none, none)
      | some n => (some n, some s.back)

/-- The `key_proximity_score` function of `src/app/main.py` (lines 115-136);
the nested copy in `src/app/ui_main.py` (lines 519-529) is identical.
Harmonic proximity of two Camelot codes on the 12-position wheel. -/
def key_proximity_score (a b : Option String) : ℤ :=
  if a = none ∨ a = some "" ∨ b = none ∨ b = some "" ∨ a = some "UNK" ∨ b = some "UNK" then 0
  else
    match parse_camelot a, parse_camelot b with
    | (some n1, m1), (some n2, m2) =>
      if n1 = n2 ∧ m1 = m2 then 100
      else if n1 = n2 ∧ m1 ≠ m2 then 85
      else
        let dist := min |n1 - n2| (12 - |n1 - n2|)
        if m1 = m2 ∧ dist = 1 then 90
        else if m1 = m2 ∧ dist = 2 then 65
        else if m1 = m2 ∧ dist = 3 then 45
        else 0
    | _, _ => 0

/-- The `bpm_tier_score` function of `src/app/main.py` (lines 138-155):
tiered BPM scoring with tier labels.  Python's `if not a or not b` treats
both `None` and `0` as unknown. -/
def bpm_tier_score (a b : Option ℤ) : ℤ × String :=
  match a, b with
  | some a, some b =>
    if a = 0 ∨ b = 0 then (0, "unknown")
    else
      let diff := |a - b|
      if diff ≤ 2 then (100, "tight")
      else if diff ≤ 5 then (85, "close")
      else if |a - b * 2| ≤ 3 ∨ |a * 2 - b| ≤ 3 then (70, "ratio")
      else if diff ≤ 8 then (50, "loose")
      else (0, "far")
  | _, _ => (0, "unknown")

/-- The `mix_score` function of `src/app/main.py` (lines 157-162); identical
nested copy in `src/app/ui_main.py` (lines 512-538).  The source computes
`int(round(0.6 * bpm_score_val + 0.4 * key_score_val))`; the float expression
`0.6 * b + 0.4 * k` has the exact value `(6 * b + 4 * k) / 10`, whose
banker's rounding is `pyRoundDiv (6 * b + 4 * k) 10`
(`mix_score_eq_pyRound` below restates it over `ℚ`). -/
def mix_score (curBpm : Option ℤ) (curKey : Option String) (bpm : Option ℤ) (key : Option String) : ℤ :=
  pyRoundDiv (6 * (bpm_tier_score curBpm bpm).1 + 4 * key_proximity_score curKey key) 10

/-- The `KEY_MAP` table of `src/app/audio.py` (lines 19-24), also imported by
`src/app/main.py`: pitch class name to `(majorCode, minorCode)`.  `dict.get`
with default `(None, None)` is modelled by the final catch-all branch. -/
def KEY_MAP (k : String) : Option String × Option String :=
  if k = "C" then (some "8B", some "5A")
  else if k = "C#" then (some "3B", some "12A")
  else if k = "D" then (some "10B", some "7A")
  else if k = "D#" then (some "5B", some "2A")
  else if k = "E" then (some "12B", some "9A")
  else if k = "F" then (some "7B", some "4A")
  else if k = "F#" then (some "2B", some "11A")
  else if k = "G" then (some "9B", some "6A")
  else if k = "G#" then (some "4B", some "1A")
  else if k = "A" then (some "11B", some "8A")
  else if k = "A#" then (some "6B", some "3A")
  else if k = "B" then (some "1B", some "10A")
  else (none, none)

/-- The twelve pitch-class names, `_KEYS_12` in `src/app/audio.py` (line 17). -/
def KEYS_12 : List String :=
  ["C", "C#", "D"] ++ ["D#", "E", "F"] ++ ["F#", "G", "G#"] ++ ["A", "A#", "B"]

/-- The `key_to_camelot` function of `src/app/audio.py` (lines 76-82) and
`src/app/main.py` (lines 280-288).  A falsy key (`None` or `""`) returns
`None`; any mode other than `"major"`/`"minor"` (including a null mode) is
replaced by `"minor"`. -/
def key_to_camelot (key : Option String) (mode : Option String) : Option String :=
  match key with
  | none => none
  | some k =>
    if k = "" then none
    else
      let mm := KEY_MAP k
      let mode1 := if mode ≠ some "major" ∧ mode ≠ some "minor" then some "minor" else mode
      if mode1 = some "minor" then mm.2 else mm.1

/-- The value passed for the BPM argument of the `analysis_complete` signal by
`AudioAnalysisWorker.run` (`src/app/workers.py` line 114, `src/app/main.py`
line 632): `bpm or 0`, where `bpm` is the analysis result (`int` or `None`).
Python `x or 0` yields `0` when `x` is `None` (and `0` when `x == 0`). -/
def emitted_bpm (bpm : Option ℤ) : ℤ :=
  match bpm with
  | none => 0
  | some b => b

/-- How `handle_audio_analysis` (`src/app/main.py` line 1279) renders the BPM
received from the signal: `str(bpm) if bpm else "UNK"` — the integer `0` is
falsy and is rendered as the unknown sentinel. -/
def rendered_bpm (bpm : ℤ) : String :=
  if bpm = 0 then "UNK" else toString bpm

/-- The Krumhansl-Schmuckler major profile, `_KS_PROFILE_MAJOR` in
`src/app/audio.py` (lines 9-12) and `src/app/main.py` (lines 191-194). -/
def KS_PROFILE_MAJOR : List ℚ :=
  [6.35, 2.23, 3.48, 2.33, 4.38, 4.09, 2.52, 5.19, 2.39, 3.66, 2.29, 2.88]

/-- The Krumhansl-Schmuckler minor profile, `_KS_PROFILE_MINOR` in
`src/app/audio.py` (lines 13-16) and `src/app/main.py` (lines 195-198). -/
def KS_PROFILE_MINOR : List ℚ :=
  [6.33, 2.68, 3.52, 5.38, 2.60, 3.53, 2.54, 4.75, 3.98, 2.69, 3.34, 3.17]

/-- The `_rotate` helper of `src/app/audio.py` (lines 27-29): `lst[n:] + lst[:n]`
after `n %= len(lst)`. -/
def listRotate (l : List ℚ) (n : ℕ) : List ℚ :=
  l.drop (n % l.length) ++ l.take (n % l.length)

/-- Numpy `.max()` of a vector (all uses are on non-empty 12-entry vectors,
for which the default value is never taken). -/
def listMax (l : List ℚ) : ℚ := l.max?.getD 0

/-- Numpy dot product of two equal-length vectors. -/
def dotList (v w : List ℚ) : ℚ := (List.zipWith (fun x y => x * y) v w).sum

/-- The `1e-9` guard constant used in the normalizations of
`infer_key_mode_from_chroma`. -/
def KS_EPS : ℚ := 1 / 1000000000

/-- Time-average of a chromagram (`chroma.mean(axis=1)`).  The `12 × frames`
matrix is represented column-wise: one list entry per frame, each a function
from pitch class to energy; `chroma.size == 0` iff there are zero frames. -/
def chroma_mean_base (cols : List (Fin 12 → ℚ)) : List ℚ :=
  (List.finRange 12).map (fun p => (cols.map (fun c => c p)).sum / cols.length)

/-- The normalized mean chroma vector of `infer_key_mode_from_chroma`
(`src/app/audio.py` lines 36-38): divided by `(max + 1e-9)` only when the
maximum is positive. -/
def chroma_mean (cols : List (Fin 12 → ℚ)) : List ℚ :=
  if 0 < listMax (chroma_mean_base cols) then
    (chroma_mean_base cols).map (fun x => x / (listMax (chroma_mean_base cols) + KS_EPS))
  else chroma_mean_base cols

/-- A reference profile rotated by `i` and normalized by its own maximum plus
`1e-9` (`src/app/audio.py` lines 43-46). -/
def norm_prof (prof : List ℚ) (i : ℕ) : List ℚ :=
  (listRotate prof i).map (fun x => x / (listMax (listRotate prof i) + KS_EPS))

/-- The major-mode candidate score for tonal center `i`
(`s_maj` in `src/app/audio.py` line 47). -/
def ks_score_major (cols : List (Fin 12 → ℚ)) (i : ℕ) : ℚ :=
  dotList (chroma_mean cols) (norm_prof KS_PROFILE_MAJOR i)

/-- The minor-mode candidate score for tonal center `i`
(`s_min` in `src/app/audio.py` line 48). -/
def ks_score_minor (cols : List (Fin 12 → ℚ)) (i : ℕ) : ℚ :=
  dotList (chroma_mean cols) (norm_prof KS_PROFILE_MINOR i)

/-- One iteration of the running-maximum loop of `infer_key_mode_from_chroma`
(`src/app/audio.py` lines 49-52): the major candidate is compared first, then
the minor candidate against the possibly-updated best. -/
def ks_step (cols : List (Fin 12 → ℚ)) (st : ℚ × Option String × Option String) (i : ℕ) :
    ℚ × Option String × Option String :=
  let st1 := if ks_score_major cols i > st.1
    then (ks_score_major cols i, some (KEYS_12.getD i ""), some "major") else st
  if ks_score_minor cols i > st1.1
    then (ks_score_minor cols i, some (KEYS_12.getD i ""), some "minor") else st1

/-- The `infer_key_mode_from_chroma` function of `src/app/audio.py`
(lines 32-53); the copy in `src/app/main.py` (lines 205-231) is identical.
`None` input or a chromagram with zero frames gives `(None, None)`. -/
def infer_key_mode_from_chroma (chroma : Option (List (Fin 12 → ℚ))) :
    Option String × Option String :=
  match chroma with
  | none => (none, none)
  | some cols =>
    if cols.length = 0 then (none, none)
    else
      let st := (List.range 12).foldl (ks_step cols) (-1, none, none)
      (st.2.1, st.2.2)

/-- The 24 candidate `(score, pitchClass, mode)` triples in the encounter
order of the source loop: ascending tonal center, major before minor. -/
def ks_candidates (cols : List (Fin 12 → ℚ)) : List (ℚ × String × String) :=
  (List.range 12).flatMap (fun i =>
    [(ks_score_major cols i, KEYS_12.getD i "", "major"),
     (ks_score_minor cols i, KEYS_12.getD i "", "minor")])

/-- Generic running-maximum scan with a strict `>` update, as performed by the
source loop over the flattened candidate list: the first maximum wins. -/
def runBest (l : List (ℚ × String × String)) (st : ℚ × Option String × Option String) :
    ℚ × Option String × Option String :=
  match l with
  | [] => st
  | (s, k, m) :: rest => runBest rest (if s > st.1 then (s, some k, some m) else st)

/-- A contiguous slice `l[start : start + len]` of a waveform. -/
def window (l : List ℚ) (start len : ℕ) : List ℚ := (l.drop start).take len

/-- Window energy: sum of squared samples (`np.sum(window ** 2)` in
`src/app/audio.py` line 69; the `float32` cast is the identity in the exact
rational model). -/
def energy (w : List ℚ) : ℚ := (w.map (fun x => x * x)).sum

/-- The window start positions scanned by `pick_informative_segment`:
`range(0, max(1, len(y) - seg_len + 1), step)` — multiples of `step` below
the stop value. -/
def pickStarts (len segLen step : ℕ) : List ℕ :=
  (List.range ((max 1 (len - segLen + 1) + step - 1) / step)).map (fun k => k * step)

/-- Running maximum over `(energy, start)` pairs with a strict `>` update and
initial state `(-1.0, 0)`, as in `src/app/audio.py` lines 64-72. -/
def runStart (l : List (ℚ × ℕ)) (st : ℚ × ℕ) : ℚ × ℕ :=
  match l with
  | [] => st
  | (e, s) :: rest => runStart rest (if e > st.1 then (e, s) else st)

/-- The `pick_informative_segment` function of `src/app/audio.py`
(lines 56-73); the copy in `src/app/main.py` (lines 233-255) is identical.
A `None` or empty waveform, or one no longer than the target segment, is
returned unchanged; otherwise the scanned window with maximal energy is
returned (first maximum wins). -/
def pick_informative_segment (y : Option (List ℚ)) (sr : ℕ) (targetSeconds : ℕ) :
    Option (List ℚ) :=
  match y with
  | none => none
  | some l =>
    if l.length = 0 then some l
    else
      let segLen := targetSeconds * sr
      if l.length ≤ segLen then some l
      else
        let step := 5 * sr
        let starts := pickStarts l.length segLen step
        let best := runStart (starts.map (fun s => (energy (window l s segLen), s))) (-1, 0)
        some (window l best.2 segLen)

/-- A library entry as built by `refresh_library` (`src/app/main.py`
lines 1360-1380): path identity, optional integer BPM, optional Camelot key
string, and title. -/
structure Item where
  path : String
  bpm : Option ℤ
  key : Option String
  title : String
deriving DecidableEq

/-- The integers `a, a+1, ..., b` (Python `range(a, b + 1)`). -/
def deltaRange (a b : ℤ) : List ℤ :=
  (List.range (b - a + 1).toNat).map (fun i : ℕ => a + (i : ℤ))

/-- One step of the `add_bucket` closure of `gather_candidates_by_bpm`
(`src/app/main.py` lines 1413-1419): skip items whose path was already seen,
otherwise record the path and append the item. -/
def addStep (st : List String × List Item) (it : Item) : List String × List Item :=
  if it.path ∈ st.1 then st else (st.1 ++ [it.path], st.2 ++ [it])

/-- The `add_bucket(b)` call: fold `addStep` over the BPM-index bucket for
`b`.  The index built by `refresh_library` maps `b` to the library items with
`bpm == b` in library order, so the bucket is `lib.filter (·.bpm = some b)`. -/
def addBucket (lib : List Item) (st : List String × List Item) (b : ℤ) :
    List String × List Item :=
  (lib.filter (fun it => it.bpm = some b)).foldl addStep st

/-- One pass of the half/double-time loop of `gather_candidates_by_bpm`:
`if base and base > 0: for delta in range(-3, 4): add_bucket(base + delta)` —
a `None`, zero, or negative base is skipped. -/
def halfDoubleStep (lib : List Item) (st : List String × List Item) (base : Option ℤ) :
    List String × List Item :=
  match base with
  | none => st
  | some bb =>
    if 0 < bb then (deltaRange (-3) 3).foldl (fun st d => addBucket lib st (bb + d)) st
    else st

/-- The `gather_candidates_by_bpm` method of `src/app/main.py`
(lines 1407-1431); the copy in `src/app/ui_main.py` (lines 485-501) is
identical.  `self.bpm_index` is empty (falsy) exactly when no library item
has a known BPM; `self.library_index[:200]` is `lib.take 200`.
Python's `round(cur_bpm / 2)` is `pyRoundDiv cur 2` (banker's rounding of the
exact quotient), and `half = ... if cur_bpm else None` makes both bases
`None` when `cur_bpm` is 0. -/
def gather_candidates_by_bpm (lib : List Item) (curBpm : Option ℤ) : List Item :=
  match curBpm with
  | none => lib.take 200
  | some cur =>
    if lib.all (fun it => it.bpm = none) then lib.take 200
    else
      let st1 := (deltaRange (-5) 5).foldl (fun st d => addBucket lib st (cur + d))
        (([], []) : List String × List Item)
      let half : Option ℤ := if cur = 0 then none else some (pyRoundDiv cur 2)
      let double : Option ℤ := if cur = 0 then none else some (cur * 2)
      let st2 := [half, double].foldl (halfDoubleStep lib) st1
      let st3 := if st2.2.length < 50 then
          (deltaRange (-8) 8).foldl (fun st d => addBucket lib st (cur + d)) st2
        else st2
      st3.2

/-- Invariant of the `(seen, candidates)` state of `gather_candidates_by_bpm`:
`seen` is exactly the set of candidate paths, every candidate is a library
item, and no path repeats among the candidates. -/
def GatherInv (lib : List Item) (st : List String × List Item) : Prop :=
  (∀ p, p ∈ st.1 ↔ ∃ it ∈ st.2, it.path = p) ∧
  (∀ it ∈ st.2, it ∈ lib) ∧
  (st.2.map Item.path).Nodup

/-- The scored candidate list built by `update_next_up_from_library`
(`src/app/main.py` lines 1446-1452, `src/app/ui_main.py` lines 539-543):
candidates other than the reference itself (compared by path), paired with
their `mix_score` against the reference, keeping only positive totals. -/
def nextUpScored (cur : Item) (lib : List Item) : List (ℤ × Item) :=
  (((gather_candidates_by_bpm lib cur.bpm).filter (fun it => it.path ≠ cur.path)).map
    (fun it => (mix_score cur.bpm cur.key it.bpm it.key, it))).filter (fun p => 0 < p.1)

/-- The ordering used by `scored.sort(key=lambda x: (x[0], x[1]["title"]), reverse=True)`:
a stable sort that puts `x` before `y` when `(y.score, y.title)` is
lexicographically at most `(x.score, x.title)`.  Python compares strings by
code points, which is the order on `String.data`. -/
def nextUpLe (x y : ℤ × Item) : Bool :=
  decide (y.1 < x.1 ∨ (y.1 = x.1 ∧ y.2.title.data ≤ x.2.title.data))

/-- The ranking part of `update_next_up_from_library` (`src/app/main.py`
lines 1433-1459): score, sort descending (stable), surface the top 10. -/
def update_next_up_from_library (cur : Item) (lib : List Item) : List (ℤ × Item) :=
  ((nextUpScored cur lib).mergeSort nextUpLe).take 10

/-- Membership in the candidate set described by claim C4, as amended: BPM
within `±5` of `curBpm`, within `±3` of `round(curBpm / 2)` or of
`curBpm * 2` when the respective base is positive, or within `±8` of
`curBpm` when the widening pass applies.  This is the claim-side (spec)
description, to be compared with `gather_candidates_by_bpm`. -/
def gatherSpecMember (cur : ℤ) (widen : Bool) (it : Item) : Prop :=
  ∃ b, it.bpm = some b ∧
    (|b - cur| ≤ 5 ∨
     (0 < pyRoundDiv cur 2 ∧ |b - pyRoundDiv cur 2| ≤ 3) ∨
     (0 < cur * 2 ∧ |b - cur * 2| ≤ 3) ∨
     (widen = true ∧ |b - cur| ≤ 8))

/-- The pre-widening candidates of the claim-side description: library items
in the base (non-widened) windows. -/
def gatherSpecBase (lib : List Item) (cur : ℤ) : List Item :=
  lib.filter (fun it =>
    match it.bpm with
    | none => false
    | some b =>
      decide (|b - cur| ≤ 5) ||
      (decide (0 < pyRoundDiv cur 2) && decide (|b - pyRoundDiv cur 2| ≤ 3)) ||
      (decide (0 < cur * 2) && decide (|b - cur * 2| ≤ 3)))

/-- Concrete candidate with title `"A"` used in the ranking scenarios. -/
def itemA : Item := ⟨"p1", some 100, none, "A"⟩

/-- Concrete candidate with title `"B"` used in the ranking scenarios. -/
def itemB : Item := ⟨"p2", some 100, none, "B"⟩

/-- Concrete reference track used in the ranking scenarios. -/
def curEx : Item := ⟨"p0", some 100, none, "Cur"⟩

/-- Concrete three-track library used in the ranking scenarios. -/
def libEx : List Item := [curEx, itemA, itemB]

/-- A track at BPM 0, inside the half-time window of `curBpm = -6` described
by claim C4 but outside every window the code actually applies there. -/
def track0 : Item := ⟨"z", some 0, none, "Z"⟩

/-- A 51-track library: 50 tracks at BPM −6 (so the widening pass is not
triggered) plus `track0`. -/
def lib51 : List Item :=
  (List.range 50).map (fun i => ⟨"m" ++ toString i, some (-6), none, "T"⟩) ++ [track0]

/-- A concrete one-frame, all-zero chromagram used to instantiate the
key-estimation theorem. -/
def cols0 : List (Fin 12 → ℚ) := [fun _ => 0]

/-! ## Numeric helper lemmas -/

theorem pyRoundDiv_eq_pyRound (s d : ℤ) (hd : 0 < d) :
    pyRoundDiv s d = pyRound ((s : ℚ) / (d : ℚ)) := by
  have hdq : (0 : ℚ) < (d : ℚ) := Int.cast_pos.mpr hd
  have hfl : ⌊(s : ℚ) / (d : ℚ)⌋ = s / d := by
    have h1 := Rat.floor_intCast_div_natCast s d.toNat
    rw [Int.toNat_of_nonneg hd.le] at h1
    have h2 : ((d.toNat : ℕ) : ℚ) = (d : ℚ) := by
      exact_mod_cast congrArg (fun z : ℤ => (z : ℚ)) (Int.toNat_of_nonneg hd.le)
    rwa [h2] at h1
  have hs : s % d + d * (s / d) = s := Int.emod_add_ediv s d
  have hcast : ((s % d : ℤ) : ℚ) = (s : ℚ) - (d : ℚ) * ((s / d : ℤ) : ℚ) := by
    have h3 : (s % d : ℤ) = s - d * (s / d) := by omega
    rw [h3]; push_cast; ring
  have hfrac : (s : ℚ) / (d : ℚ) - ((s / d : ℤ) : ℚ) = ((s % d : ℤ) : ℚ) / (d : ℚ) := by
    rw [hcast]
    field_simp
  have hlt : ((s % d : ℤ) : ℚ) / (d : ℚ) < 1 / 2 ↔ 2 * (s % d) < d := by
    rw [div_lt_div_iff₀ hdq (by norm_num : (0 : ℚ) < 2), one_mul]
    constructor <;> intro h
    · have h3 : ((2 * (s % d) : ℤ) : ℚ) < ((d : ℤ) : ℚ) := by push_cast at h ⊢; linarith
      exact_mod_cast h3
    · have h3 : ((2 * (s % d) : ℤ) : ℚ) < ((d : ℤ) : ℚ) := by exact_mod_cast h
      push_cast at h3 ⊢
      linarith
  have hgt : (1 : ℚ) / 2 < ((s % d : ℤ) : ℚ) / (d : ℚ) ↔ d < 2 * (s % d) := by
    rw [div_lt_div_iff₀ (by norm_num : (0 : ℚ) < 2) hdq, one_mul]
    constructor <;> intro h
    · have h3 : ((d : ℤ) : ℚ) < ((2 * (s % d) : ℤ) : ℚ) := by push_cast at h ⊢; linarith
      exact_mod_cast h3
    · have h3 : ((d : ℤ) : ℚ) < ((2 * (s % d) : ℤ) : ℚ) := by exact_mod_cast h
      push_cast at h3 ⊢
      linarith
  unfold pyRound pyRoundDiv
  simp only [hfl, hfrac, hlt, hgt]

theorem le_pyRound {n : ℤ} {q : ℚ} (h : (n : ℚ) ≤ q) : n ≤ pyRound q := by
  have h1 : n ≤ ⌊q⌋ := Int.le_floor.mpr h
  unfold pyRound
  split_ifs <;> omega

theorem pyRound_le {q : ℚ} {n : ℤ} (h : q ≤ (n : ℚ)) : pyRound q ≤ n := by
  have h1 : ⌊q⌋ ≤ n := by
    have h2 := Int.floor_mono h
    simpa using h2
  have hfl : (⌊q⌋ : ℚ) ≤ q := Int.floor_le q
  unfold pyRound
  split_ifs with h2 h3 h4
  · exact h1
  · have : (⌊q⌋ : ℚ) < (n : ℚ) := by linarith
    have := Int.cast_lt.mp this
    omega
  · exact h1
  · have : (⌊q⌋ : ℚ) < (n : ℚ) := by linarith
    have := Int.cast_lt.mp this
    omega

theorem pyRound_intCast (z : ℤ) : pyRound (z : ℚ) = z := by
  have h1 : (z : ℚ) ≤ (z : ℚ) := le_refl _
  have := le_pyRound h1
  have := pyRound_le h1
  omega

/-! ## Value-range lemmas for the two sub-scores -/

theorem bpm_tier_score_fst_mem (a b : Option ℤ) :
    (bpm_tier_score a b).1 = 0 ∨ (bpm_tier_score a b).1 = 50 ∨ (bpm_tier_score a b).1 = 70 ∨
      (bpm_tier_score a b).1 = 85 ∨ (bpm_tier_score a b).1 = 100 := by
  rcases a with _ | a <;> rcases b with _ | b
  · exact Or.inl rfl
  · exact Or.inl rfl
  · exact Or.inl rfl
  · simp only [bpm_tier_score]
    split_ifs <;> simp

theorem key_proximity_score_mem (a b : Option String) :
    key_proximity_score a b = 0 ∨ key_proximity_score a b = 45 ∨
      key_proximity_score a b = 65 ∨ key_proximity_score a b = 85 ∨
      key_proximity_score a b = 90 ∨ key_proximity_score a b = 100 := by
  unfold key_proximity_score
  split_ifs with h
  · exact Or.inl rfl
  · rcases parse_camelot a with ⟨n1, m1⟩
    rcases parse_camelot b with ⟨n2, m2⟩
    rcases n1 with _ | n1 <;> rcases n2 with _ | n2 <;> simp only []
    · exact Or.inl trivial
    · exact Or.inl trivial
    · exact Or.inl trivial
    · split_ifs <;> simp

/-! ## Claim theorems -/

/-- C1: for every pair of inputs, `mix_score` returns the banker's rounding of
`0.6 * tempoScore + 0.4 * harmonicScore` (the float expression modelled as an
exact rational), and the result is an integer in the closed interval
`[0, 100]`. -/
theorem C1_mix_score_round_and_bounds (curBpm bpm : Option ℤ) (curKey key : Option String) :
    mix_score curBpm curKey bpm key
        = pyRound ((0.6 : ℚ) * ((bpm_tier_score curBpm bpm).1 : ℚ)
            + (0.4 : ℚ) * (key_proximity_score curKey key : ℚ))
      ∧ 0 ≤ mix_score curBpm curKey bpm key ∧ mix_score curBpm curKey bpm key ≤ 100 := by
  have ht := bpm_tier_score_fst_mem curBpm bpm
  have hk := key_proximity_score_mem curKey key
  have ht0 : 0 ≤ (bpm_tier_score curBpm bpm).1 := by rcases ht with h | h | h | h | h <;> omega
  have ht1 : (bpm_tier_score curBpm bpm).1 ≤ 100 := by rcases ht with h | h | h | h | h <;> omega
  have hk0 : 0 ≤ key_proximity_score curKey key := by
    rcases hk with h | h | h | h | h | h <;> omega
  have hk1 : key_proximity_score curKey key ≤ 100 := by
    rcases hk with h | h | h | h | h | h <;> omega
  have htq0 : (0 : ℚ) ≤ ((bpm_tier_score curBpm bpm).1 : ℚ) := by exact_mod_cast ht0
  have htq1 : ((bpm_tier_score curBpm bpm).1 : ℚ) ≤ 100 := by exact_mod_cast ht1
  have hkq0 : (0 : ℚ) ≤ (key_proximity_score curKey key : ℚ) := by exact_mod_cast hk0
  have hkq1 : (key_proximity_score curKey key : ℚ) ≤ 100 := by exact_mod_cast hk1
  have heq : mix_score curBpm curKey bpm key
      = pyRound ((0.6 : ℚ) * ((bpm_tier_score curBpm bpm).1 : ℚ)
          + (0.4 : ℚ) * (key_proximity_score curKey key : ℚ)) := by
    unfold mix_score
    rw [pyRoundDiv_eq_pyRound _ 10 (by norm_num)]
    congr 1
    push_cast
    ring
  refine ⟨heq, ?_, ?_⟩
  · rw [heq]
    exact le_pyRound (by push_cast; linarith)
  · rw [heq]
    exact pyRound_le (by push_cast; linarith)

/-- C5 counterexample: Python's falsy test `if not a or not b` treats the BPM
value `0` like a null, so the pair `(0, 0)` satisfies the claimed tight-tier
condition `|a - b| <= 2` but scores 0, not 100. -/
theorem C5_counterexample :
    |(0 : ℤ) - 0| ≤ 2 ∧ (bpm_tier_score (some 0) (some 0)).1 = 0 ∧
      (bpm_tier_score (some 0) (some 0)).1 ≠ 100 := by
  refine ⟨by decide, by decide, by decide⟩

/-- C5 as amended: a null or zero BPM on either side yields 0; for nonzero
BPMs the tier conditions are evaluated in the fixed order tight, close,
half/double-time, loose, far, with the first matching condition winning;
in particular `tempoScore(128, 64) = 70`. -/
theorem C5_tempo_tiers :
    (∀ b, (bpm_tier_score none b).1 = 0) ∧
    (∀ a, (bpm_tier_score a none).1 = 0) ∧
    (∀ b, (bpm_tier_score (some 0) b).1 = 0) ∧
    (∀ a, (bpm_tier_score a (some 0)).1 = 0) ∧
    (∀ a b : ℤ, a ≠ 0 → b ≠ 0 → |a - b| ≤ 2 → (bpm_tier_score (some a) (some b)).1 = 100) ∧
    (∀ a b : ℤ, a ≠ 0 → b ≠ 0 → ¬(|a - b| ≤ 2) → |a - b| ≤ 5 →
      (bpm_tier_score (some a) (some b)).1 = 85) ∧
    (∀ a b : ℤ, a ≠ 0 → b ≠ 0 → ¬(|a - b| ≤ 5) → (|a - b * 2| ≤ 3 ∨ |a * 2 - b| ≤ 3) →
      (bpm_tier_score (some a) (some b)).1 = 70) ∧
    (∀ a b : ℤ, a ≠ 0 → b ≠ 0 → ¬(|a - b| ≤ 5) → ¬(|a - b * 2| ≤ 3 ∨ |a * 2 - b| ≤ 3) →
      |a - b| ≤ 8 → (bpm_tier_score (some a) (some b)).1 = 50) ∧
    (∀ a b : ℤ, a ≠ 0 → b ≠ 0 → ¬(|a - b| ≤ 5) → ¬(|a - b * 2| ≤ 3 ∨ |a * 2 - b| ≤ 3) →
      ¬(|a - b| ≤ 8) → (bpm_tier_score (some a) (some b)).1 = 0) ∧
    (bpm_tier_score (some 128) (some 64)).1 = 70 := by
  refine ⟨fun b => by rcases b with _ | b <;> rfl,
          fun a => by rcases a with _ | a <;> rfl,
          fun b => by rcases b with _ | b <;> simp [bpm_tier_score],
          fun a => by rcases a with _ | a <;> simp [bpm_tier_score],
          ?_, ?_, ?_, ?_, ?_, by decide⟩ <;>
    (intro a b ha hb
     simp only [bpm_tier_score, if_neg (not_or.mpr ⟨ha, hb⟩)]
     intros
     split_ifs <;> first
       | rfl
       | (simp only [abs_le, not_and, not_or, not_le, not_lt] at *; omega))

/-- C5 witness: concrete instances of the tier equations of
`C5_tempo_tiers`, one for each tier. -/
theorem C5_tempo_tiers_witness :
    (bpm_tier_score none (some 120)).1 = 0 ∧
    (bpm_tier_score (some 120) (some 118)).1 = 100 ∧
    (bpm_tier_score (some 120) (some 115)).1 = 85 ∧
    (bpm_tier_score (some 128) (some 64)).1 = 70 ∧
    (bpm_tier_score (some 120) (some 112)).1 = 50 ∧
    (bpm_tier_score (some 120) (some 90)).1 = 0 :=
  ⟨C5_tempo_tiers.1 (some 120),
   C5_tempo_tiers.2.2.2.2.1 120 118 (by decide) (by decide) (by decide),
   C5_tempo_tiers.2.2.2.2.2.1 120 115 (by decide) (by decide) (by decide) (by decide),
   C5_tempo_tiers.2.2.2.2.2.2.1 128 64 (by decide) (by decide) (by decide) (by decide),
   C5_tempo_tiers.2.2.2.2.2.2.2.1 120 112 (by decide) (by decide) (by decide) (by decide)
     (by decide),
   C5_tempo_tiers.2.2.2.2.2.2.2.2.1 120 90 (by decide) (by decide) (by decide) (by decide)
     (by decide)⟩

/-- C6 counterexample: for a null pitch class the Camelot mapper returns the
null value `None`, not the sentinel string `"UNK"` (the sentinel is
substituted later by callers such as `AudioAnalysisWorker.run`). -/
theorem C6_counterexample :
    key_to_camelot none (some "major") = none ∧ (none : Option String) ≠ some "UNK" :=
  ⟨rfl, by decide⟩

/-- C6 as amended: the Camelot mapper is a deterministic lookup in the fixed
12-entry table, the mode selecting the major or minor half of each pair, and
a null pitch class returns null (callers substitute the `"UNK"` sentinel). -/
theorem C6_camelot_lookup :
    (∀ m, key_to_camelot none m = none) ∧
    (key_to_camelot (some "C") (some "major") = some "8B" ∧
     key_to_camelot (some "C") (some "minor") = some "5A" ∧
     key_to_camelot (some "C#") (some "major") = some "3B" ∧
     key_to_camelot (some "C#") (some "minor") = some "12A" ∧
     key_to_camelot (some "D") (some "major") = some "10B" ∧
     key_to_camelot (some "D") (some "minor") = some "7A" ∧
     key_to_camelot (some "D#") (some "major") = some "5B" ∧
     key_to_camelot (some "D#") (some "minor") = some "2A" ∧
     key_to_camelot (some "E") (some "major") = some "12B" ∧
     key_to_camelot (some "E") (some "minor") = some "9A" ∧
     key_to_camelot (some "F") (some "major") = some "7B" ∧
     key_to_camelot (some "F") (some "minor") = some "4A" ∧
     key_to_camelot (some "F#") (some "major") = some "2B" ∧
     key_to_camelot (some "F#") (some "minor") = some "11A" ∧
     key_to_camelot (some "G") (some "major") = some "9B" ∧
     key_to_camelot (some "G") (some "minor") = some "6A" ∧
     key_to_camelot (some "G#") (some "major") = some "4B" ∧
     key_to_camelot (some "G#") (some "minor") = some "1A" ∧
     key_to_camelot (some "A") (some "major") = some "11B" ∧
     key_to_camelot (some "A") (some "minor") = some "8A" ∧
     key_to_camelot (some "A#") (some "major") = some "6B" ∧
     key_to_camelot (some "A#") (some "minor") = some "3A" ∧
     key_to_camelot (some "B") (some "major") = some "1B" ∧
     key_to_camelot (some "B") (some "minor") = some "10A") :=
  ⟨fun _ => rfl, by decide⟩

/-- C10: for every pitch class in the 12-entry table and every mode that is
neither `"major"` nor `"minor"` (including a null mode), the Camelot mapper
returns the pitch class's minor code, silently defaulting to minor. -/
theorem C10_mode_defaults_to_minor (k : String) (m : Option String)
    (hk : k ∈ KEYS_12) (h1 : m ≠ some "major") (h2 : m ≠ some "minor") :
    key_to_camelot (some k) m = (KEY_MAP k).2 ∧ (KEY_MAP k).2 ≠ none := by
  have hk0 : ¬ k = "" := by
    intro hE
    subst hE
    revert hk
    decide
  constructor
  · simp only [key_to_camelot]
    rw [if_neg hk0]
    rw [if_pos (show m ≠ some "major" ∧ m ≠ some "minor" from ⟨h1, h2⟩)]
    rw [if_pos rfl]
  · fin_cases hk <;> decide

/-- C10 witness: a null mode on pitch class C yields the minor code 5A. -/
theorem C10_mode_defaults_to_minor_witness :
    key_to_camelot (some "C") none = (KEY_MAP "C").2 ∧ (KEY_MAP "C").2 ≠ none :=
  C10_mode_defaults_to_minor "C" none (by decide) (by decide) (by decide)

/-- C8 counterexample: when tempo estimation fails (null in-pipeline BPM),
the value surfaced through the worker's completion signal is the number 0,
not an absent value — `bpm or 0` at the `analysis_complete.emit` call. -/
theorem C8_counterexample : emitted_bpm none = 0 := rfl

/-- C8 as amended: the worker boundary surfaces an unknown BPM as the integer
0 (the signal is int-typed), and consumers treat the falsy 0 as the unknown
state: the post-processing renders it as the `UNK` sentinel and the tier
scorer gives it the zero score; a known nonzero BPM passes through
unchanged. -/
theorem C8_zero_sentinel :
    emitted_bpm none = 0 ∧ rendered_bpm (emitted_bpm none) = "UNK" ∧
      (∀ b, (bpm_tier_score (some (emitted_bpm none)) b).1 = 0) ∧
      (∀ b : ℤ, emitted_bpm (some b) = b) := by
  refine ⟨rfl, rfl, ?_, fun b => rfl⟩
  intro b
  rcases b with _ | b <;> simp [bpm_tier_score, emitted_bpm]

/-- C9: the harmonic proximity score is symmetric in its two Camelot code
arguments, for every pair of (optional) code strings. -/
theorem C9_key_proximity_symm (a b : Option String) :
    key_proximity_score a b = key_proximity_score b a := by
  unfold key_proximity_score
  by_cases hg : a = none ∨ a = some "" ∨ b = none ∨ b = some "" ∨
      a = some "UNK" ∨ b = some "UNK"
  · rw [if_pos hg, if_pos (by tauto)]
  · rw [if_neg hg, if_neg (by tauto)]
    rcases parse_camelot a with ⟨n1, m1⟩
    rcases parse_camelot b with ⟨n2, m2⟩
    rcases n1 with _ | n1 <;> rcases n2 with _ | n2
    · rfl
    · rfl
    · rfl
    · simp only []
      rw [abs_sub_comm n2 n1]
      by_cases h1 : n1 = n2
      · subst h1
        by_cases h2 : m1 = m2
        · subst h2
          rfl
        · rw [if_neg (show ¬(n1 = n1 ∧ m1 = m2) from fun hc => h2 hc.2),
              if_neg (show ¬(n1 = n1 ∧ m2 = m1) from fun hc => h2 hc.2.symm),
              if_pos (show n1 = n1 ∧ m1 ≠ m2 from ⟨rfl, h2⟩),
              if_pos (show n1 = n1 ∧ m2 ≠ m1 from ⟨rfl, fun hc => h2 hc.symm⟩)]
      · rw [if_neg (show ¬(n1 = n2 ∧ m1 = m2) from fun hc => h1 hc.1),
            if_neg (show ¬(n2 = n1 ∧ m2 = m1) from fun hc => h1 hc.1.symm),
            if_neg (show ¬(n1 = n2 ∧ m1 ≠ m2) from fun hc => h1 hc.1),
            if_neg (show ¬(n2 = n1 ∧ m2 ≠ m1) from fun hc => h1 hc.1.symm)]
        by_cases h2 : m1 = m2
        · subst h2
          rfl
        · rw [if_neg (show ¬(m1 = m2 ∧ min |n1 - n2| (12 - |n1 - n2|) = 1) from
                fun hc => h2 hc.1),
              if_neg (show ¬(m2 = m1 ∧ min |n1 - n2| (12 - |n1 - n2|) = 1) from
                fun hc => h2 hc.1.symm),
              if_neg (show ¬(m1 = m2 ∧ min |n1 - n2| (12 - |n1 - n2|) = 2) from
                fun hc => h2 hc.1),
              if_neg (show ¬(m2 = m1 ∧ min |n1 - n2| (12 - |n1 - n2|) = 2) from
                fun hc => h2 hc.1.symm),
              if_neg (show ¬(m1 = m2 ∧ min |n1 - n2| (12 - |n1 - n2|) = 3) from
                fun hc => h2 hc.1),
              if_neg (show ¬(m2 = m1 ∧ min |n1 - n2| (12 - |n1 - n2|) = 3) from
                fun hc => h2 hc.1.symm)]

/-! ## Segment-selector lemmas -/

theorem runStart_mem (l : List (ℚ × ℕ)) (st : ℚ × ℕ) :
    runStart l st = st ∨ runStart l st ∈ l := by
  induction l generalizing st with
  | nil => exact Or.inl rfl
  | cons p rest ih =>
    obtain ⟨pe, ps⟩ := p
    simp only [runStart]
    rcases ih (if pe > st.1 then (pe, ps) else st) with h | h
    · by_cases hc : pe > st.1
      · right
        rw [h, if_pos hc]
        exact List.mem_cons_self _ _
      · left
        rw [h, if_neg hc]
    · right
      exact List.mem_cons_of_mem _ h

theorem runStart_ge (l : List (ℚ × ℕ)) (st : ℚ × ℕ) :
    st.1 ≤ (runStart l st).1 ∧ ∀ e ∈ l, e.1 ≤ (runStart l st).1 := by
  induction l generalizing st with
  | nil => exact ⟨le_refl _, by simp⟩
  | cons p rest ih =>
    obtain ⟨pe, ps⟩ := p
    simp only [runStart]
    obtain ⟨ih1, ih2⟩ := ih (if pe > st.1 then (pe, ps) else st)
    constructor
    · refine le_trans ?_ ih1
      split_ifs with hc
      · exact le_of_lt hc
      · exact le_refl _
    · intro e he
      rcases List.mem_cons.mp he with rfl | he2
      · refine le_trans ?_ ih1
        split_ifs with hc
        · exact le_refl _
        · exact le_of_not_lt hc
      · exact ih2 e he2

theorem energy_nonneg (w : List ℚ) : 0 ≤ energy w := by
  refine List.sum_nonneg ?_
  intro x hx
  obtain ⟨y, _, rfl⟩ := List.mem_map.mp hx
  exact mul_self_nonneg y

theorem zero_mem_pickStarts (len segLen step : ℕ) (hstep : 0 < step) :
    0 ∈ pickStarts len segLen step := by
  unfold pickStarts
  refine List.mem_map.mpr ⟨0, ?_, by simp⟩
  refine List.mem_range.mpr ?_
  have h1 : 1 ≤ (max 1 (len - segLen + 1) + step - 1) / step := by
    rw [Nat.le_div_iff_mul_le hstep]
    omega
  omega

theorem pick_some_of_gt (l : List ℚ) (sr ts : ℕ) (h0 : l.length ≠ 0)
    (hgt : ts * sr < l.length) :
    pick_informative_segment (some l) sr ts
      = some (window l (runStart ((pickStarts l.length (ts * sr) (5 * sr)).map
          (fun s => (energy (window l s (ts * sr)), s))) (-1, 0)).2 (ts * sr)) := by
  simp only [pick_informative_segment]
  rw [if_neg h0, if_neg (by omega)]

/-- C7: a null waveform, and every waveform of at most `targetSeconds * sr`
samples, is returned unchanged by the segment selector; every longer
waveform yields the scanned window (start positions advancing in steps of
five seconds from zero) of maximal sum-of-squares energy. -/
theorem C7_pick_segment (y : Option (List ℚ)) (sr targetSeconds : ℕ) (hsr : 0 < sr) :
    (y = none → pick_informative_segment y sr targetSeconds = none) ∧
    (∀ l, y = some l → l.length ≤ targetSeconds * sr →
        pick_informative_segment y sr targetSeconds = some l) ∧
    (∀ l, y = some l → targetSeconds * sr < l.length →
        ∃ s ∈ pickStarts l.length (targetSeconds * sr) (5 * sr),
          pick_informative_segment y sr targetSeconds
              = some (window l s (targetSeconds * sr)) ∧
          ∀ t ∈ pickStarts l.length (targetSeconds * sr) (5 * sr),
            energy (window l t (targetSeconds * sr))
              ≤ energy (window l s (targetSeconds * sr))) := by
  refine ⟨fun h => by rw [h]; rfl, ?_, ?_⟩
  · intro l hy hle
    rw [hy]
    simp only [pick_informative_segment]
    split_ifs <;> first | rfl | omega
  · intro l hy hgt
    subst hy
    have h0 : l.length ≠ 0 := by omega
    have hstep : 0 < 5 * sr := by omega
    set segLen := targetSeconds * sr with hseg
    set starts := pickStarts l.length segLen (5 * sr) with hstarts
    set pairs := starts.map (fun s => (energy (window l s segLen), s)) with hpairs
    set best := runStart pairs (-1, 0) with hbest
    have hpick := pick_some_of_gt l sr targetSeconds h0 hgt
    have h0s : (0 : ℕ) ∈ starts := zero_mem_pickStarts l.length segLen (5 * sr) hstep
    have hp0 : (energy (window l 0 segLen), 0) ∈ pairs :=
      List.mem_map.mpr ⟨0, h0s, rfl⟩
    obtain ⟨hge1, hge2⟩ := runStart_ge pairs (-1, 0)
    rcases runStart_mem pairs (-1, 0) with hcase | hcase
    · exfalso
      have h1 : energy (window l 0 segLen) ≤ (runStart pairs (-1, 0)).1 :=
        hge2 _ hp0
      rw [hcase] at h1
      have h2 : (0 : ℚ) ≤ energy (window l 0 segLen) := energy_nonneg _
      have h3 : ((-1 : ℚ), (0 : ℕ)).1 = (-1 : ℚ) := rfl
      rw [h3] at h1
      linarith
    · obtain ⟨s0, hs0, heq⟩ := List.mem_map.mp hcase
      have hb2 : best.2 = s0 := by rw [hbest, ← heq]
      refine ⟨best.2, ?_, ?_, ?_⟩
      · rw [hb2]
        exact hs0
      · exact hpick
      · intro t ht
        have hin : (energy (window l t segLen), t) ∈ pairs :=
          List.mem_map.mpr ⟨t, ht, rfl⟩
        have h1 := hge2 _ hin
        have h2 : best.1 = energy (window l best.2 segLen) := by
          rw [hb2, hbest, ← heq]
        rw [hbest] at h2
        exact h2 ▸ h1

/-- C7 witness: a concrete two-sample waveform is shorter than the 30-second
target at sample rate 1 and is returned unchanged. -/
theorem C7_pick_segment_witness :
    pick_informative_segment (some [(1 : ℚ), 2]) 1 30 = some [(1 : ℚ), 2] :=
  (C7_pick_segment (some [(1 : ℚ), 2]) 1 30 (by norm_num)).2.1 [(1 : ℚ), 2] rfl (by norm_num)

/-! ## Key-estimation lemmas -/

theorem runBest_append (l1 l2 : List (ℚ × String × String))
    (st : ℚ × Option String × Option String) :
    runBest (l1 ++ l2) st = runBest l2 (runBest l1 st) := by
  induction l1 generalizing st with
  | nil => rfl
  | cons p rest ih =>
    obtain ⟨ps, pk, pm⟩ := p
    simp only [List.cons_append, runBest]
    exact ih _

theorem ks_step_eq_runBest (cols : List (Fin 12 → ℚ))
    (st : ℚ × Option String × Option String) (i : ℕ) :
    ks_step cols st i
      = runBest [(ks_score_major cols i, KEYS_12.getD i "", "major"),
                 (ks_score_minor cols i, KEYS_12.getD i "", "minor")] st := rfl

theorem foldl_ks_step_eq_runBest (cols : List (Fin 12 → ℚ)) (is : List ℕ)
    (st : ℚ × Option String × Option String) :
    is.foldl (ks_step cols) st
      = runBest (is.flatMap (fun i =>
          [(ks_score_major cols i, KEYS_12.getD i "", "major"),
           (ks_score_minor cols i, KEYS_12.getD i "", "minor")])) st := by
  induction is generalizing st with
  | nil => rfl
  | cons i rest ih =>
    simp only [List.foldl_cons, List.flatMap_cons]
    rw [ih, runBest_append, ks_step_eq_runBest]

theorem runBest_spec (l : List (ℚ × String × String))
    (st : ℚ × Option String × Option String) :
    (runBest l st = st ∧ ∀ e ∈ l, e.1 ≤ st.1) ∨
    (∃ l1 e l2, l = l1 ++ e :: l2 ∧ runBest l st = (e.1, some e.2.1, some e.2.2) ∧
       st.1 < e.1 ∧ (∀ x ∈ l1, x.1 < e.1) ∧ (∀ x ∈ l2, x.1 ≤ e.1)) := by
  induction l generalizing st with
  | nil => exact Or.inl ⟨rfl, by simp⟩
  | cons p rest ih =>
    obtain ⟨ps, pk, pm⟩ := p
    simp only [runBest]
    by_cases hc : ps > st.1
    · rw [if_pos hc]
      rcases ih (ps, some pk, some pm) with ⟨h1, h2⟩ | ⟨l1, e, l2, hsplit, hval, hgt, hl1, hl2⟩
      · right
        exact ⟨[], (ps, pk, pm), rest, by simp, by rw [h1], hc, by simp, h2⟩
      · right
        refine ⟨(ps, pk, pm) :: l1, e, l2, by rw [hsplit, List.cons_append], hval,
          lt_trans hc hgt, ?_, hl2⟩
        intro x hx
        rcases List.mem_cons.mp hx with rfl | hx2
        · exact hgt
        · exact hl1 x hx2
    · rw [if_neg hc]
      rcases ih st with ⟨h1, h2⟩ | ⟨l1, e, l2, hsplit, hval, hgt, hl1, hl2⟩
      · left
        refine ⟨h1, ?_⟩
        intro x hx
        rcases List.mem_cons.mp hx with rfl | hx2
        · exact le_of_not_lt hc
        · exact h2 x hx2
      · right
        refine ⟨(ps, pk, pm) :: l1, e, l2, by rw [hsplit, List.cons_append], hval, hgt, ?_, hl2⟩
        intro x hx
        rcases List.mem_cons.mp hx with rfl | hx2
        · exact lt_of_le_of_lt (le_of_not_lt hc) hgt
        · exact hl1 x hx2

theorem listMax_nonneg (l : List ℚ) (h : ∀ x ∈ l, 0 ≤ x) : 0 ≤ listMax l := by
  unfold listMax
  cases hm : l.max? with
  | none => simp
  | some m =>
    simp only [Option.getD_some]
    exact h m (List.max?_mem (fun a b => max_choice a b) hm)

theorem chroma_mean_base_nonneg (cols : List (Fin 12 → ℚ))
    (h : ∀ c ∈ cols, ∀ p, 0 ≤ c p) : ∀ x ∈ chroma_mean_base cols, 0 ≤ x := by
  intro x hx
  obtain ⟨p, _, rfl⟩ := List.mem_map.mp hx
  apply div_nonneg
  · apply List.sum_nonneg
    intro v hv
    obtain ⟨c, hc, rfl⟩ := List.mem_map.mp hv
    exact h c hc p
  · exact_mod_cast Nat.zero_le _

theorem chroma_mean_nonneg (cols : List (Fin 12 → ℚ))
    (h : ∀ c ∈ cols, ∀ p, 0 ≤ c p) : ∀ x ∈ chroma_mean cols, 0 ≤ x := by
  unfold chroma_mean
  split_ifs with hpos
  · intro x hx
    obtain ⟨v, hv, rfl⟩ := List.mem_map.mp hx
    apply div_nonneg (chroma_mean_base_nonneg cols h v hv)
    have he : (0 : ℚ) < KS_EPS := by unfold KS_EPS; norm_num
    linarith
  · exact chroma_mean_base_nonneg cols h

theorem norm_prof_nonneg (prof : List ℚ) (hprof : ∀ x ∈ prof, 0 ≤ x) (i : ℕ) :
    ∀ x ∈ norm_prof prof i, 0 ≤ x := by
  intro x hx
  obtain ⟨v, hv, rfl⟩ := List.mem_map.mp hx
  have hvp : v ∈ prof := by
    unfold listRotate at hv
    rcases List.mem_append.mp hv with h1 | h1
    · exact List.drop_subset _ _ h1
    · exact List.take_subset _ _ h1
  have hrot : ∀ y ∈ listRotate prof i, 0 ≤ y := by
    intro y hy
    unfold listRotate at hy
    rcases List.mem_append.mp hy with h1 | h1
    · exact hprof y (List.drop_subset _ _ h1)
    · exact hprof y (List.take_subset _ _ h1)
  apply div_nonneg (hprof v hvp)
  have he : (0 : ℚ) < KS_EPS := by unfold KS_EPS; norm_num
  have := listMax_nonneg _ hrot
  linarith

theorem dotList_nonneg : ∀ (v w : List ℚ), (∀ x ∈ v, 0 ≤ x) → (∀ x ∈ w, 0 ≤ x) →
    0 ≤ dotList v w
  | [], _, _, _ => by simp [dotList]
  | _ :: _, [], _, _ => by simp [dotList]
  | a :: v, b :: w, hv, hw => by
    simp only [dotList, List.zipWith_cons_cons, List.sum_cons]
    have h1 : 0 ≤ a * b := mul_nonneg (hv a (by simp)) (hw b (by simp))
    have h2 : 0 ≤ dotList v w :=
      dotList_nonneg v w (fun x hx => hv x (by simp [hx])) (fun x hx => hw x (by simp [hx]))
    unfold dotList at h2
    linarith

theorem ks_profile_major_nonneg : ∀ x ∈ KS_PROFILE_MAJOR, 0 ≤ x := by
  intro x hx
  fin_cases hx <;> norm_num

theorem ks_score_major_nonneg (cols : List (Fin 12 → ℚ))
    (h : ∀ c ∈ cols, ∀ p, 0 ≤ c p) (i : ℕ) : 0 ≤ ks_score_major cols i :=
  dotList_nonneg _ _ (chroma_mean_nonneg cols h)
    (norm_prof_nonneg KS_PROFILE_MAJOR ks_profile_major_nonneg i)

/-- C2: the key/mode estimator is the running-maximum scan over the 24
candidate scores (dot products of the normalized mean chroma vector with the
normalized rotated Krumhansl-Schmuckler profiles) in encounter order —
ascending tonal center, major before minor: the returned pair is the first
candidate achieving the maximal score (every earlier candidate scores
strictly less, every later one at most as much).  A null chromagram or one
with zero frames yields `(none, none)`.  Determinism is definitional: the
embedding is a pure function of the chromagram. -/
theorem C2_infer_key_mode (cols : List (Fin 12 → ℚ))
    (hnn : ∀ c ∈ cols, ∀ p, 0 ≤ c p) :
    infer_key_mode_from_chroma none = (none, none) ∧
    (cols.length = 0 → infer_key_mode_from_chroma (some cols) = (none, none)) ∧
    (cols.length ≠ 0 → ∃ l1 e l2, ks_candidates cols = l1 ++ e :: l2 ∧
        infer_key_mode_from_chroma (some cols) = (some e.2.1, some e.2.2) ∧
        (∀ x ∈ l1, x.1 < e.1) ∧ (∀ x ∈ l2, x.1 ≤ e.1)) := by
  refine ⟨rfl, fun h => by simp [infer_key_mode_from_chroma, h], ?_⟩
  intro hne
  have hfold : (List.range 12).foldl (ks_step cols) (-1, none, none)
      = runBest (ks_candidates cols) (-1, none, none) :=
    foldl_ks_step_eq_runBest cols (List.range 12) (-1, none, none)
  rcases runBest_spec (ks_candidates cols) (-1, none, none) with
    ⟨_, h2⟩ | ⟨l1, e, l2, hsplit, hval, _, hl1, hl2⟩
  · exfalso
    have hm : (ks_score_major cols 0, KEYS_12.getD 0 "", "major") ∈ ks_candidates cols := by
      refine List.mem_flatMap.mpr ⟨0, by simp, by simp⟩
    have hle := h2 _ hm
    have h0 : 0 ≤ ks_score_major cols 0 := ks_score_major_nonneg cols hnn 0
    have hcontra : ks_score_major cols 0 ≤ (-1 : ℚ) := hle
    linarith
  · refine ⟨l1, e, l2, hsplit, ?_, hl1, hl2⟩
    simp only [infer_key_mode_from_chroma, if_neg hne]
    rw [hfold, hval]

/-- C2 witness: the theorem instantiated at the concrete one-frame all-zero
chromagram `cols0`. -/
theorem C2_infer_key_mode_witness :
    infer_key_mode_from_chroma none = (none, none) ∧
    (cols0.length = 0 → infer_key_mode_from_chroma (some cols0) = (none, none)) ∧
    (cols0.length ≠ 0 → ∃ l1 e l2, ks_candidates cols0 = l1 ++ e :: l2 ∧
        infer_key_mode_from_chroma (some cols0) = (some e.2.1, some e.2.2) ∧
        (∀ x ∈ l1, x.1 < e.1) ∧ (∀ x ∈ l2, x.1 ≤ e.1)) := by
  refine C2_infer_key_mode cols0 ?_
  intro c hc p
  have h1 : c = fun _ => 0 := by
    rcases List.mem_singleton.mp hc with rfl
    rfl
  rw [h1]

/-! ## Next-up ranking lemmas -/

theorem nextUpLe_trans : ∀ a b c : ℤ × Item,
    nextUpLe a b = true → nextUpLe b c = true → nextUpLe a c = true := by
  intro a b c hab hbc
  simp only [nextUpLe, decide_eq_true_eq] at hab hbc ⊢
  rcases hab with h1 | ⟨h1, h2⟩ <;> rcases hbc with h3 | ⟨h3, h4⟩
  · exact Or.inl (lt_trans h3 h1)
  · exact Or.inl (by rw [h3]; exact h1)
  · exact Or.inl (by rw [← h1]; exact h3)
  · exact Or.inr ⟨h3.trans h1, le_trans h4 h2⟩

theorem nextUpLe_total : ∀ a b : ℤ × Item, (nextUpLe a b || nextUpLe b a) = true := by
  intro a b
  simp only [nextUpLe, Bool.or_eq_true, decide_eq_true_eq]
  rcases lt_trichotomy a.1 b.1 with h | h | h
  · exact Or.inr (Or.inl h)
  · rcases le_total b.2.title.data a.2.title.data with ht | ht
    · exact Or.inl (Or.inr ⟨h.symm, ht⟩)
    · exact Or.inr (Or.inr ⟨h, ht⟩)
  · exact Or.inl (Or.inl h)

/-- C3 as amended: every gathered candidate other than the reference itself
(excluded by path identity) is scored with `mix_score`; zero-total candidates
are excluded; the rest are sorted in descending score order with ties broken
by descending (not ascending) lexicographic title, and the first 10 entries
of that sorted list are surfaced: the output has `min 10 n` entries for `n`
positive-scored candidates, every output entry is a scored gathered
candidate with positive total, all positive-scored candidates appear when
there are at most 10 of them, and the output is sorted by the descending
(score, title) order. -/
theorem C3_next_up (cur : Item) (lib : List Item) :
    (update_next_up_from_library cur lib).length = min 10 (nextUpScored cur lib).length ∧
    (∀ p ∈ update_next_up_from_library cur lib,
        ∃ it ∈ gather_candidates_by_bpm lib cur.bpm, it.path ≠ cur.path ∧
          p = (mix_score cur.bpm cur.key it.bpm it.key, it) ∧ 0 < p.1) ∧
    ((nextUpScored cur lib).length ≤ 10 →
        ∀ p ∈ nextUpScored cur lib, p ∈ update_next_up_from_library cur lib) ∧
    (update_next_up_from_library cur lib).Pairwise (fun x y =>
        y.1 < x.1 ∨ (y.1 = x.1 ∧ y.2.title.data ≤ x.2.title.data)) := by
  refine ⟨?_, ?_, ?_, ?_⟩
  · unfold update_next_up_from_library
    rw [List.length_take, List.length_mergeSort]
  · intro p hp
    have hp1 : p ∈ (nextUpScored cur lib).mergeSort nextUpLe := List.mem_of_mem_take hp
    have hp2 : p ∈ nextUpScored cur lib := List.mem_mergeSort.mp hp1
    unfold nextUpScored at hp2
    obtain ⟨hmem, hpos⟩ := List.mem_filter.mp hp2
    obtain ⟨it, hit, rfl⟩ := List.mem_map.mp hmem
    obtain ⟨hg, hpath⟩ := List.mem_filter.mp hit
    exact ⟨it, hg, of_decide_eq_true hpath, rfl, of_decide_eq_true hpos⟩
  · intro hlen p hp
    unfold update_next_up_from_library
    rw [List.take_of_length_le]
    · exact List.mem_mergeSort.mpr hp
    · rw [List.length_mergeSort]
      exact hlen
  · have hs := List.sorted_mergeSort nextUpLe_trans nextUpLe_total (nextUpScored cur lib)
    have hs2 : ((nextUpScored cur lib).mergeSort nextUpLe).Pairwise (fun x y =>
        y.1 < x.1 ∨ (y.1 = x.1 ∧ y.2.title.data ≤ x.2.title.data)) := by
      refine hs.imp ?_
      intro a b h
      simpa only [nextUpLe, decide_eq_true_eq] using h
    exact List.Pairwise.sublist (List.take_sublist 10 _) hs2

/-- C3 witness: with the concrete three-track library, every positive-scored
candidate is surfaced; in particular the pair `(60, itemB)` appears in the
next-up output. -/
theorem C3_next_up_witness :
    (60, itemB) ∈ update_next_up_from_library curEx libEx :=
  (C3_next_up curEx libEx).2.2.1 (by decide) (60, itemB) (by decide)

unseal List.merge List.mergeSort in
/-- C3 counterexample: with the concrete library, the two candidates tie at
score 60 and are surfaced with titles in descending order `["B", "A"]`,
although `"A" < "B"` — refuting the claimed ascending tie-break (which would
surface `["A", "B"]`).  The sort is
`scored.sort(key=lambda x: (x[0], x[1]["title"]), reverse=True)`:
`reverse=True` applies to the whole key tuple, so equal-score ties are broken
by descending title. -/
theorem C3_counterexample :
    (update_next_up_from_library curEx libEx).map (fun p => p.2.title) = ["B", "A"] ∧
    (update_next_up_from_library curEx libEx).map (fun p => p.1) = [60, 60] ∧
    ("A" : String).data < ("B" : String).data := by
  refine ⟨by decide, by decide, by decide⟩

/-! ## Candidate-gathering lemmas -/

theorem mem_deltaRange (a b x : ℤ) : x ∈ deltaRange a b ↔ a ≤ x ∧ x ≤ b := by
  unfold deltaRange
  simp only [List.mem_map, List.mem_range]
  constructor
  · rintro ⟨i, hi, rfl⟩
    omega
  · rintro ⟨h1, h2⟩
    exact ⟨(x - a).toNat, by omega, by push_cast; omega⟩

theorem foldl_addStep_closed (items : List Item) (seen : List String) (acc : List Item)
    (hnd : (items.map Item.path).Nodup) :
    items.foldl addStep (seen, acc)
      = (seen ++ (items.filter (fun it => decide (it.path ∉ seen))).map Item.path,
         acc ++ items.filter (fun it => decide (it.path ∉ seen))) := by
  induction items generalizing seen acc with
  | nil => simp
  | cons it rest ih =>
    simp only [List.map_cons, List.nodup_cons] at hnd
    obtain ⟨hni, hnd2⟩ := hnd
    simp only [List.foldl_cons]
    by_cases hp : it.path ∈ seen
    · have hstep : addStep (seen, acc) it = (seen, acc) := by simp [addStep, hp]
      rw [hstep, ih seen acc hnd2]
      simp [List.filter_cons, hp]
    · have hstep : addStep (seen, acc) it = (seen ++ [it.path], acc ++ [it]) := by
        simp [addStep, hp]
      rw [hstep, ih (seen ++ [it.path]) (acc ++ [it]) hnd2]
      have hfeq : rest.filter (fun jt => decide (jt.path ∉ seen ++ [it.path]))
          = rest.filter (fun jt => decide (jt.path ∉ seen)) := by
        apply List.filter_congr
        intro jt hjt
        have hne : jt.path ≠ it.path := by
          intro hEq
          exact hni (hEq ▸ List.mem_map.mpr ⟨jt, hjt, rfl⟩)
        simp [List.mem_append, hne]
      rw [hfeq]
      simp [List.filter_cons, hp, List.append_assoc]

theorem addBucket_spec (lib : List Item) (hnd : (lib.map Item.path).Nodup)
    (st : List String × List Item) (hInv : GatherInv lib st) (b : ℤ) :
    GatherInv lib (addBucket lib st b) ∧
      ∀ it, (it ∈ (addBucket lib st b).2 ↔ it ∈ st.2 ∨ (it ∈ lib ∧ it.bpm = some b)) := by
  obtain ⟨seen, acc⟩ := st
  obtain ⟨hseen, hsub, hnodup⟩ := hInv
  have hbnd : ((lib.filter (fun it => decide (it.bpm = some b))).map Item.path).Nodup :=
    List.Nodup.sublist ((List.filter_sublist lib).map Item.path) hnd
  have hcf := foldl_addStep_closed (lib.filter (fun it => decide (it.bpm = some b))) seen acc hbnd
  have hout : addBucket lib (seen, acc) b
      = (seen ++ ((lib.filter (fun it => decide (it.bpm = some b))).filter
            (fun it => decide (it.path ∉ seen))).map Item.path,
         acc ++ (lib.filter (fun it => decide (it.bpm = some b))).filter
            (fun it => decide (it.path ∉ seen))) := by
    unfold addBucket
    exact hcf
  set new := (lib.filter (fun it => decide (it.bpm = some b))).filter
      (fun it => decide (it.path ∉ seen)) with hnew
  have hnew_mem : ∀ it, it ∈ new ↔ (it ∈ lib ∧ it.bpm = some b ∧ it.path ∉ seen) := by
    intro it
    rw [hnew]
    simp only [List.mem_filter, decide_eq_true_eq]
    tauto
  have hnew_lib : ∀ it ∈ new, it ∈ lib := fun it hit => ((hnew_mem it).mp hit).1
  have hmem : ∀ it, (it ∈ acc ++ new ↔ it ∈ acc ∨ (it ∈ lib ∧ it.bpm = some b)) := by
    intro it
    rw [List.mem_append]
    constructor
    · rintro (h | h)
      · exact Or.inl h
      · obtain ⟨h1, h2, _⟩ := (hnew_mem it).mp h
        exact Or.inr ⟨h1, h2⟩
    · rintro (h | ⟨h1, h2⟩)
      · exact Or.inl h
      · by_cases hp : it.path ∈ seen
        · obtain ⟨jt, hjt, hjp⟩ := (hseen it.path).mp hp
          have hj : jt = it :=
            List.inj_on_of_nodup_map hnd (hsub jt hjt) h1 hjp
          exact Or.inl (hj ▸ hjt)
        · exact Or.inr ((hnew_mem it).mpr ⟨h1, h2, hp⟩)
  rw [hout]
  refine ⟨⟨?_, ?_, ?_⟩, hmem⟩
  · intro p
    simp only [List.mem_append, List.mem_map]
    constructor
    · rintro (h | ⟨jt, hjt, rfl⟩)
      · obtain ⟨jt, hjt, hjp⟩ := (hseen p).mp h
        exact ⟨jt, Or.inl hjt, hjp⟩
      · exact ⟨jt, Or.inr hjt, rfl⟩
    · rintro ⟨jt, hjt | hjt, rfl⟩
      · exact Or.inl ((hseen jt.path).mpr ⟨jt, hjt, rfl⟩)
      · exact Or.inr ⟨jt, hjt, rfl⟩
  · intro it hit
    rcases List.mem_append.mp hit with h | h
    · exact hsub it h
    · exact hnew_lib it h
  · rw [List.map_append]
    rw [List.nodup_append]
    refine ⟨hnodup, ?_, ?_⟩
    · exact List.Nodup.sublist ((List.filter_sublist _).map Item.path) hbnd
    · intro p hp1 hp2
      obtain ⟨jt, hjt, rfl⟩ := List.mem_map.mp hp1
      obtain ⟨kt, hkt, hkp⟩ := List.mem_map.mp hp2
      have h1 : kt.path ∉ seen := ((hnew_mem kt).mp hkt).2.2
      have h2 : jt.path ∈ seen := (hseen jt.path).mpr ⟨jt, hjt, rfl⟩
      exact h1 (hkp ▸ h2)

theorem foldl_addBucket_spec (lib : List Item) (hnd : (lib.map Item.path).Nodup)
    (bs : List ℤ) (st : List String × List Item) (hInv : GatherInv lib st) :
    GatherInv lib (bs.foldl (addBucket lib) st) ∧
      ∀ it, (it ∈ (bs.foldl (addBucket lib) st).2 ↔
        it ∈ st.2 ∨ (it ∈ lib ∧ ∃ b ∈ bs, it.bpm = some b)) := by
  induction bs generalizing st with
  | nil => exact ⟨hInv, fun it => by simp⟩
  | cons b rest ih =>
    obtain ⟨hInv1, hmem1⟩ := addBucket_spec lib hnd st hInv b
    obtain ⟨hInv2, hmem2⟩ := ih (addBucket lib st b) hInv1
    refine ⟨hInv2, ?_⟩
    intro it
    simp only [List.foldl_cons]
    rw [hmem2 it, hmem1 it]
    simp only [List.mem_cons]
    constructor
    · rintro ((h | ⟨h1, h2⟩) | ⟨h1, b2, hb2, h2⟩)
      · exact Or.inl h
      · exact Or.inr ⟨h1, b, Or.inl rfl, h2⟩
      · exact Or.inr ⟨h1, b2, Or.inr hb2, h2⟩
    · rintro (h | ⟨h1, b2, (rfl | hb2), h2⟩)
      · exact Or.inl (Or.inl h)
      · exact Or.inl (Or.inr ⟨h1, h2⟩)
      · exact Or.inr ⟨h1, b2, hb2, h2⟩

theorem halfDoubleStep_spec (lib : List Item) (hnd : (lib.map Item.path).Nodup)
    (st : List String × List Item) (hInv : GatherInv lib st) (base : Option ℤ) :
    GatherInv lib (halfDoubleStep lib st base) ∧
      ∀ it, (it ∈ (halfDoubleStep lib st base).2 ↔ it ∈ st.2 ∨
        (it ∈ lib ∧ ∃ bb b, base = some bb ∧ 0 < bb ∧ it.bpm = some b ∧ |b - bb| ≤ 3)) := by
  rcases base with _ | bb
  · refine ⟨hInv, fun it => ?_⟩
    simp [halfDoubleStep]
  · simp only [halfDoubleStep]
    by_cases hbb : 0 < bb
    · rw [if_pos hbb]
      have hfold : (deltaRange (-3) 3).foldl (fun st d => addBucket lib st (bb + d)) st
          = ((deltaRange (-3) 3).map (fun d => bb + d)).foldl (addBucket lib) st := by
        rw [List.foldl_map]
      obtain ⟨hInv2, hmem2⟩ := foldl_addBucket_spec lib hnd
        ((deltaRange (-3) 3).map (fun d => bb + d)) st hInv
      rw [hfold]
      refine ⟨hInv2, ?_⟩
      intro it
      rw [hmem2 it]
      constructor
      · rintro (h | ⟨h1, b, hb, h2⟩)
        · exact Or.inl h
        · obtain ⟨d, hd, rfl⟩ := List.mem_map.mp hb
          have hd2 := (mem_deltaRange _ _ d).mp hd
          exact Or.inr ⟨h1, bb, bb + d, rfl, hbb, h2, by simp only [abs_le]; omega⟩
      · rintro (h | ⟨h1, bb2, b, hEq, hpos, h2, h3⟩)
        · exact Or.inl h
        · injection hEq with hEq
          subst hEq
          refine Or.inr ⟨h1, b, ?_, h2⟩
          rw [abs_le] at h3
          exact List.mem_map.mpr ⟨b - bb, (mem_deltaRange _ _ _).mpr (by omega), by ring⟩
    · rw [if_neg hbb]
      refine ⟨hInv, fun it => ?_⟩
      constructor
      · exact Or.inl
      · rintro (h | ⟨h1, bb2, b, hEq, hpos, h2, h3⟩)
        · exact h
        · injection hEq with hEq
          exact absurd (hEq ▸ hpos) hbb

theorem mem_gatherSpecBase (lib : List Item) (cur : ℤ) (it : Item) :
    it ∈ gatherSpecBase lib cur ↔ it ∈ lib ∧ gatherSpecMember cur false it := by
  unfold gatherSpecBase gatherSpecMember
  rw [List.mem_filter]
  rcases hb : it.bpm with _ | b
  · simp [hb]
  · simp only [hb, Bool.or_eq_true, Bool.and_eq_true, decide_eq_true_eq, Option.some_inj]
    constructor
    · rintro ⟨h1, ((h2 | ⟨h2, h3⟩) | ⟨h2, h3⟩)⟩
      · exact ⟨h1, b, rfl, Or.inl h2⟩
      · exact ⟨h1, b, rfl, Or.inr (Or.inl ⟨h2, h3⟩)⟩
      · exact ⟨h1, b, rfl, Or.inr (Or.inr (Or.inl ⟨h2, h3⟩))⟩
    · rintro ⟨h1, b2, rfl, (h2 | ⟨h2, h3⟩ | ⟨h2, h3⟩ | ⟨h2, h3⟩)⟩
      · exact ⟨h1, Or.inl (Or.inl h2)⟩
      · exact ⟨h1, Or.inl (Or.inr ⟨h2, h3⟩)⟩
      · exact ⟨h1, Or.inr ⟨h2, h3⟩⟩
      · exact absurd h2 (by simp)

theorem gather_some_eq (lib : List Item) (cur : ℤ)
    (hne : ¬ lib.all (fun it => it.bpm = none) = true) :
    gather_candidates_by_bpm lib (some cur) =
      (let st1 := ((deltaRange (-5) 5).map (fun d => cur + d)).foldl (addBucket lib) ([], []);
       let st2 := halfDoubleStep lib (halfDoubleStep lib st1
         (if cur = 0 then none else some (pyRoundDiv cur 2)))
         (if cur = 0 then none else some (cur * 2));
       let st3 := if st2.2.length < 50 then
           ((deltaRange (-8) 8).map (fun d => cur + d)).foldl (addBucket lib) st2
         else st2;
       st3.2) := by
  simp only [gather_candidates_by_bpm]
  rw [if_neg hne]
  simp only [List.foldl_cons, List.foldl_nil, List.foldl_map]

theorem mem_shiftRange (c lo hi x : ℤ) :
    x ∈ (deltaRange lo hi).map (fun d => c + d) ↔ lo ≤ x - c ∧ x - c ≤ hi := by
  simp only [List.mem_map]
  constructor
  · rintro ⟨d, hd, rfl⟩
    have hd2 := (mem_deltaRange _ _ d).mp hd
    omega
  · intro h
    exact ⟨x - c, (mem_deltaRange _ _ _).mpr (by omega), by ring⟩

/-- C4 as amended: for a null `curBpm` or an empty BPM index the first 200
library tracks are returned; otherwise the gathered candidates are, without
path duplicates, exactly the library tracks whose BPM lies within `±5` of
`curBpm`, within `±3` of `round(curBpm/2)` when that rounded value is
positive, within `±3` of `curBpm*2` when that doubling is positive, or
within `±8` of `curBpm` when the widening pass applies (fewer than 50
base candidates). -/
theorem C4_gather_candidates (lib : List Item) (cur : ℤ)
    (hnd : (lib.map Item.path).Nodup) :
    gather_candidates_by_bpm lib none = lib.take 200 ∧
    ((∀ it ∈ lib, it.bpm = none) → gather_candidates_by_bpm lib (some cur) = lib.take 200) ∧
    (¬(∀ it ∈ lib, it.bpm = none) →
       (((gather_candidates_by_bpm lib (some cur)).map Item.path).Nodup ∧
        ∀ it, (it ∈ gather_candidates_by_bpm lib (some cur) ↔
          it ∈ lib ∧ gatherSpecMember cur
            (decide ((gatherSpecBase lib cur).length < 50)) it))) := by
  refine ⟨rfl, ?_, ?_⟩
  · intro h
    simp only [gather_candidates_by_bpm]
    rw [if_pos (List.all_eq_true.mpr (fun it hit => decide_eq_true (h it hit)))]
  · intro hne
    have hne' : ¬ lib.all (fun it => it.bpm = none) = true := by
      intro hall
      exact hne (fun it hit => of_decide_eq_true (List.all_eq_true.mp hall it hit))
    rw [gather_some_eq lib cur hne']
    simp only []
    have hInv0 : GatherInv lib (([], []) : List String × List Item) := by
      refine ⟨fun p => by simp, fun it hit => absurd hit (List.not_mem_nil it), by simp⟩
    obtain ⟨hInv1, hmem1⟩ := foldl_addBucket_spec lib hnd
      ((deltaRange (-5) 5).map (fun d => cur + d)) ([], []) hInv0
    set st1 := ((deltaRange (-5) 5).map (fun d => cur + d)).foldl (addBucket lib)
      (([], []) : List String × List Item) with hst1
    obtain ⟨hInvH, hmemH⟩ := halfDoubleStep_spec lib hnd st1 hInv1
      (if cur = 0 then none else some (pyRoundDiv cur 2))
    set stH := halfDoubleStep lib st1 (if cur = 0 then none else some (pyRoundDiv cur 2))
      with hstH
    obtain ⟨hInv2, hmemD⟩ := halfDoubleStep_spec lib hnd stH hInvH
      (if cur = 0 then none else some (cur * 2))
    set st2 := halfDoubleStep lib stH (if cur = 0 then none else some (cur * 2)) with hst2
    have hroundzero : pyRoundDiv 0 2 = 0 := by decide
    have hst2mem : ∀ it, (it ∈ st2.2 ↔ it ∈ lib ∧ gatherSpecMember cur false it) := by
      intro it
      rw [hmemD it, hmemH it, hmem1 it]
      unfold gatherSpecMember
      constructor
      · rintro (((hF | ⟨hlib, b, hbmem, hbpm⟩) | ⟨hlib, bb, b, hEq, hpos, hbpm, habs⟩) |
          ⟨hlib, bb, b, hEq, hpos, hbpm, habs⟩)
        · exact absurd hF (List.not_mem_nil it)
        · have h5 := (mem_shiftRange cur (-5) 5 b).mp hbmem
          exact ⟨hlib, b, hbpm, Or.inl (by rw [abs_le]; omega)⟩
        · by_cases hc : cur = 0
          · rw [if_pos hc] at hEq
            exact absurd hEq (by simp)
          · rw [if_neg hc] at hEq
            injection hEq with hEq
            subst hEq
            exact ⟨hlib, b, hbpm, Or.inr (Or.inl ⟨hpos, habs⟩)⟩
        · by_cases hc : cur = 0
          · rw [if_pos hc] at hEq
            exact absurd hEq (by simp)
          · rw [if_neg hc] at hEq
            injection hEq with hEq
            subst hEq
            exact ⟨hlib, b, hbpm, Or.inr (Or.inr (Or.inl ⟨hpos, habs⟩))⟩
      · rintro ⟨hlib, b, hbpm, (h5 | ⟨hp, h3⟩ | ⟨hp, h3⟩ | ⟨hfalse, _⟩)⟩
        · refine Or.inl (Or.inl (Or.inr ⟨hlib, b, ?_, hbpm⟩))
          rw [abs_le] at h5
          exact (mem_shiftRange cur (-5) 5 b).mpr (by omega)
        · have hc : cur ≠ 0 := by
            intro hE
            rw [hE, hroundzero] at hp
            exact absurd hp (by omega)
          exact Or.inl (Or.inr ⟨hlib, pyRoundDiv cur 2, b, by rw [if_neg hc], hp, hbpm, h3⟩)
        · have hc : cur ≠ 0 := by
            intro hE
            rw [hE] at hp
            exact absurd hp (by omega)
          exact Or.inr ⟨hlib, cur * 2, b, by rw [if_neg hc], hp, hbpm, h3⟩
        · exact absurd hfalse (by simp)
    have hnodupLib : lib.Nodup := List.Nodup.of_map _ hnd
    have hnodup2 : st2.2.Nodup := List.Nodup.of_map _ hInv2.2.2
    have hnodupBase : (gatherSpecBase lib cur).Nodup :=
      List.Nodup.sublist (List.filter_sublist lib) hnodupLib
    have hperm : st2.2.Perm (gatherSpecBase lib cur) :=
      (List.perm_ext_iff_of_nodup hnodup2 hnodupBase).mpr
        (fun it => (hst2mem it).trans (mem_gatherSpecBase lib cur it).symm)
    have hlen : st2.2.length = (gatherSpecBase lib cur).length := hperm.length_eq
    by_cases hw : st2.2.length < 50
    · rw [if_pos hw]
      obtain ⟨hInv3, hmem3⟩ := foldl_addBucket_spec lib hnd
        ((deltaRange (-8) 8).map (fun d => cur + d)) st2 hInv2
      have hwide : decide ((gatherSpecBase lib cur).length < 50) = true :=
        decide_eq_true (hlen ▸ hw)
      refine ⟨hInv3.2.2, ?_⟩
      intro it
      rw [hmem3 it, hst2mem it, hwide]
      unfold gatherSpecMember
      constructor
      · rintro (⟨hlib, b, hbpm, hdisj⟩ | ⟨hlib, b, hbmem, hbpm⟩)
        · refine ⟨hlib, b, hbpm, ?_⟩
          rcases hdisj with hd1 | hd2 | hd3 | ⟨hfalse, _⟩
          · exact Or.inl hd1
          · exact Or.inr (Or.inl hd2)
          · exact Or.inr (Or.inr (Or.inl hd3))
          · exact absurd hfalse (by simp)
        · have h8 := (mem_shiftRange cur (-8) 8 b).mp hbmem
          exact ⟨hlib, b, hbpm, Or.inr (Or.inr (Or.inr ⟨rfl, by rw [abs_le]; omega⟩))⟩
      · rintro ⟨hlib, b, hbpm, (h5 | hD2 | hD3 | ⟨_, h8⟩)⟩
        · exact Or.inl ⟨hlib, b, hbpm, Or.inl h5⟩
        · exact Or.inl ⟨hlib, b, hbpm, Or.inr (Or.inl hD2)⟩
        · exact Or.inl ⟨hlib, b, hbpm, Or.inr (Or.inr (Or.inl hD3))⟩
        · refine Or.inr ⟨hlib, b, ?_, hbpm⟩
          rw [abs_le] at h8
          exact (mem_shiftRange cur (-8) 8 b).mpr (by omega)
    · rw [if_neg hw]
      have hwide : decide ((gatherSpecBase lib cur).length < 50) = false := by
        rw [decide_eq_false_iff_not]
        omega
      refine ⟨hInv2.2.2, ?_⟩
      intro it
      rw [hst2mem it, hwide]

/-- C4 witness: in the concrete three-track library with `curBpm = 100`,
`itemA` (BPM 100, inside the `±5` window) is gathered; proved by applying
the gathering theorem at that input. -/
theorem C4_gather_candidates_witness :
    itemA ∈ gather_candidates_by_bpm libEx (some 100) :=
  (((C4_gather_candidates libEx 100 (by decide)).2.2 (by decide)).2 itemA).mpr
    ⟨by decide, 100, rfl, Or.inl (by decide)⟩

set_option maxRecDepth 100000 in
/-- C4 counterexample: with `curBpm = -6` and a 51-track library (50 tracks
at BPM −6, one at BPM 0), the track at BPM 0 lies within `±3` of
`round(curBpm / 2) = -3`, and the widening pass does not apply (50 base
candidates), yet the code does not gather it: the half-time window is only
applied when its base is positive (`if base and base > 0`), so the claim's
unconditional half-window description fails for negative tempi. -/
theorem C4_counterexample :
    track0 ∈ lib51 ∧ track0.bpm = some 0 ∧
    |(0 : ℤ) - pyRoundDiv (-6) 2| ≤ 3 ∧
    ¬ ((gatherSpecBase lib51 (-6)).length < 50) ∧
    track0 ∉ gather_candidates_by_bpm lib51 (some (-6)) := by
  refine ⟨by decide, rfl, by decide, by decide, by decide⟩

end Muzixer
